import Mathlib

/-!
Shallow embedding of the buildkit solver fragment consisting of
`solver/exec.go` (the exec operation: `CacheKey`, `Run`, `ContentKeys`)
and `solver/vertex.go` (vertex progress notification), together with
theorems settling the specification claims about it.

Modelling conventions:
* machine integers are `Nat` (no arithmetic overflow is reachable in the
  embedded code paths);
* `digest.FromBytes(json.Marshal r)` is modelled as the record `r` itself
  (deterministic serialization plus a collision-free hash, i.e. the digest
  is an injective function of the serialized record);
* a Go slice access out of range is a runtime panic; it is modelled as the
  distinguished outcome `panicOOB`, kept apart from the ordinary error
  returns;
* external collaborators (cache manager, worker, content store) are
  modelled by oracles: a `RunEnv` of failure switches, and references that
  carry an abstract content identifier so that `contenthash.Checksum` is a
  pure function of (content, selector).
-/

namespace Solver

/-! ### Operation definition (the fragment of `pb` used by `solver/exec.go`) -/

/-- Destination path of the root mount (`pb.RootMount`). -/
def RootMount : String := "/"

/-- Cache type tag (`execCacheType` in `solver/exec.go`). -/
def execCacheType : String := "buildkit.exec.v0"

/-- One mount declaration (`pb.Mount`): the input edge index (`none` models
the sentinel `pb.Empty`), the path selector, the destination path, the
output disposition (`false` models `pb.SkipOutput`) and the readonly flag. -/
structure Mount where
  input : Option Nat
  selector : String
  dest : String
  output : Bool
  readonly : Bool
deriving DecidableEq, Repr

/-- Process metadata of an exec operation (`pb.Meta`). -/
structure ExecMeta where
  args : List String
  env : List String
  cwd : String
deriving DecidableEq, Repr

/-- The declared definition of an exec operation (`pb.ExecOp`). -/
structure ExecOp where
  meta : ExecMeta
  mounts : List Mount
deriving DecidableEq, Repr

/-- Byte-lexicographic string comparison (Go's `<` / `≤` on strings),
as a total order on the underlying character lists. -/
def strLeb : List Char → List Char → Bool
  | [], _ => true
  | _ :: _, [] => false
  | a :: as, b :: bs =>
    if a.toNat < b.toNat then true
    else if b.toNat < a.toNat then false
    else strLeb as bs

theorem strLeb_total (x y : List Char) : strLeb x y = true ∨ strLeb y x = true := by
  induction x generalizing y with
  | nil => exact Or.inl rfl
  | cons a as ih =>
    cases y with
    | nil => exact Or.inr rfl
    | cons b bs =>
      by_cases h1 : a.toNat < b.toNat
      · exact Or.inl (by simp [strLeb, h1])
      · by_cases h2 : b.toNat < a.toNat
        · exact Or.inr (by simp [strLeb, h2])
        · rcases ih bs with h | h
          · exact Or.inl (by simp [strLeb, h1, h2, h])
          · exact Or.inr (by simp [strLeb, h1, h2, h])

theorem strLeb_trans (x y z : List Char) (h1 : strLeb x y = true)
    (h2 : strLeb y z = true) : strLeb x z = true := by
  induction x generalizing y z with
  | nil => rfl
  | cons a as ih =>
    cases y with
    | nil => exact absurd h1 (by simp [strLeb])
    | cons b bs =>
      cases z with
      | nil => exact absurd h2 (by simp [strLeb])
      | cons c cs =>
        simp only [strLeb] at h1 h2 ⊢
        by_cases hab : a.toNat < b.toNat
        · by_cases hbc : b.toNat < c.toNat
          · have hac : a.toNat < c.toNat := by omega
            simp [hac]
          · by_cases hcb : c.toNat < b.toNat
            · simp [hbc, hcb] at h2
            · have hac : a.toNat < c.toNat := by omega
              simp [hac]
        · by_cases hba : b.toNat < a.toNat
          · simp [hab, hba] at h1
          · simp [hab, hba] at h1
            by_cases hbc : b.toNat < c.toNat
            · have hac : a.toNat < c.toNat := by omega
              simp [hac]
            · by_cases hcb : c.toNat < b.toNat
              · simp [hbc, hcb] at h2
              · simp [hbc, hcb] at h2
                have hac1 : ¬ a.toNat < c.toNat := by omega
                have hac2 : ¬ c.toNat < a.toNat := by omega
                simp [hac1, hac2]
                exact ih bs cs h1 h2

theorem strLeb_antisymm (x y : List Char) (h1 : strLeb x y = true)
    (h2 : strLeb y x = true) : x = y := by
  induction x generalizing y with
  | nil =>
    cases y with
    | nil => rfl
    | cons b bs => exact absurd h2 (by simp [strLeb])
  | cons a as ih =>
    cases y with
    | nil => exact absurd h1 (by simp [strLeb])
    | cons b bs =>
      simp only [strLeb] at h1 h2
      split_ifs at h1 h2 <;> try omega
      have hn : a.toNat = b.toNat := by omega
      have hab : a = b := Char.eq_of_val_eq (UInt32.ext hn)
      simp [hab, ih bs h1 h2]

/-- Go's `≤` on strings, via the character lists. -/
def strLe (a b : String) : Prop := strLeb a.data b.data = true

instance : DecidableRel strLe := fun a b => by
  unfold strLe; exact inferInstance

theorem strLe_antisymm (a b : String) (h1 : strLe a b) (h2 : strLe b a) : a = b := by
  cases a; cases b
  simp only [strLe] at h1 h2
  simp [strLeb_antisymm _ _ h1 h2]

/-- Splitting a character list on `/` (the effect of `strings.Split` used
by Go's `path` package). -/
def splitSlashAux : List Char → List Char → List String
  | [], acc => [String.mk acc.reverse]
  | c :: rest, acc =>
    if c = '/' then String.mk acc.reverse :: splitSlashAux rest []
    else splitSlashAux rest (c :: acc)

/-- Joining path segments with `/`. -/
def joinSegs : List String → String
  | [] => ""
  | [a] => a
  | a :: rest => a ++ "/" ++ joinSegs rest

/-- Go's `path.Join("/", sel)`: split on `/`, drop empty and `.` segments,
resolve `..` against the segment stack (eaten at the root), and rebuild an
absolute path. -/
def pathJoinRoot (sel : String) : String :=
  let segs := (splitSlashAux sel.data []).foldl
    (fun st seg =>
      if seg = "" ∨ seg = "." then st
      else if seg = ".." then st.dropLast
      else st ++ [seg]) []
  "/" ++ joinSegs segs

/-! ### References

`solver.Reference` is an opaque handle; `toImmutableRef` succeeds exactly on
the storage-backed immutable kind.  An immutable reference is modelled by
the abstract identifier of its byte content (byte-identical content means
equal identifier); the `other` constructor stands for any value of a
different dynamic kind, tagged so that distinct wrong-kind values exist. -/

inductive Reference where
  | imm (content : Nat)
  | other (tag : Nat)
deriving DecidableEq, Repr

/-- Model of `toImmutableRef`: the content of the reference when it is of
the immutable storage-backed kind, `none` otherwise. -/
def toImmutableRefOpt : Reference → Option Nat
  | .imm c => some c
  | .other _ => none

/-! ### CacheKey (`execOp.CacheKey`) -/

/-- The `execOp` struct itself: the declared definition plus opaque handles
to the cache manager and the worker. -/
structure ExecOpHandle where
  op : ExecOp
  cm : Nat
  w : Nat
deriving DecidableEq, Repr

/-- The record marshalled by `CacheKey` (`{Type, Exec}`); per the modelling
convention the digest is this record. -/
structure CacheKeyRecord where
  typ : String
  exec : ExecOp
deriving DecidableEq, Repr

/-- Model of `execOp.CacheKey`: hash of the tagged declared definition.
The marshalling of a well-formed `ExecOp` cannot fail, so no error case
remains. -/
def CacheKey (e : ExecOpHandle) : CacheKeyRecord :=
  ⟨execCacheType, e.op⟩

/-! ### ContentKeys (`execOp.ContentKeys`) -/

/-- The `src` key of the qualifying-mount map: input index and normalized
selector. -/
structure Src where
  index : Nat
  selector : String
deriving DecidableEq, Repr

/-- The comparison used by `sort.Slice` over `srcs`: primarily by input
index, secondarily by selector string. -/
def srcLe (a b : Src) : Prop :=
  a.index < b.index ∨ (a.index = b.index ∧ strLe a.selector b.selector)

instance : DecidableRel srcLe := fun a b => by
  unfold srcLe; exact inferInstance

instance : IsTotal Src srcLe := by
  constructor
  intro a b
  rcases Nat.lt_trichotomy a.index b.index with h | h | h
  · exact Or.inl (Or.inl h)
  · rcases strLeb_total a.selector.data b.selector.data with hs | hs
    · exact Or.inl (Or.inr ⟨h, hs⟩)
    · exact Or.inr (Or.inr ⟨h.symm, hs⟩)
  · exact Or.inr (Or.inl h)

instance : IsTrans Src srcLe := by
  constructor
  intro a b c hab hbc
  rcases hab with h1 | ⟨h1, hs1⟩ <;> rcases hbc with h2 | ⟨h2, hs2⟩
  · exact Or.inl (h1.trans h2)
  · exact Or.inl (h2 ▸ h1)
  · exact Or.inl (h1 ▸ h2)
  · exact Or.inr ⟨h1.trans h2, strLeb_trans _ _ _ hs1 hs2⟩

instance : IsAntisymm Src srcLe := by
  constructor
  intro a b hab hba
  rcases hab with h1 | ⟨h1, hs1⟩ <;> rcases hba with h2 | ⟨h2, hs2⟩
  · exact absurd h2 (Nat.lt_asymm h1)
  · exact absurd h1 (by omega)
  · exact absurd h2 (by omega)
  · cases a; cases b
    simp only [Src.mk.injEq]
    exact ⟨h1, strLe_antisymm _ _ hs1 hs2⟩

/-- Accumulator of the mount-classification loop: the `skipped` input
indices, the distinct qualifying `(index, selector)` pairs (the Go map,
kept here in insertion order), and the `skip` flag. -/
structure Classified where
  skipped : List Nat
  srcs : List Src
  skip : Bool
deriving Repr

/-- Map insertion: a new key is appended, an existing key is left alone. -/
def insertSrc (l : List Src) (s : Src) : List Src :=
  if s ∈ l then l else l ++ [s]

/-- One iteration of the classification loop over `e.op.Mounts`. -/
def classStep (c : Classified) (m : Mount) : Classified :=
  match m.input with
  | none => c
  | some idx =>
    if m.dest ≠ RootMount ∧ m.readonly = true then
      { c with srcs := insertSrc c.srcs ⟨idx, pathJoinRoot m.selector⟩, skip := false }
    else
      { c with skipped := c.skipped ++ [idx] }

def classifyFrom (c : Classified) : List Mount → Classified
  | [] => c
  | m :: rest => classifyFrom (classStep c m) rest

/-- The classification loop of `ContentKeys` (lines 140–158 of
`solver/exec.go`). -/
def classifyMounts (ms : List Mount) : Classified :=
  classifyFrom ⟨[], [], true⟩ ms

/-- Whether a mount contributes a content checksum: it has an input,
targets a non-root destination and is readonly. -/
def qualifies (m : Mount) : Prop :=
  m.input.isSome = true ∧ m.dest ≠ RootMount ∧ m.readonly = true

instance : DecidablePred qualifies := fun m => by
  unfold qualifies; exact inferInstance

/-- Errors of the `ContentKeys` model.  `panicOOB` is not a Go error value:
it marks a reachable out-of-range slice access (a runtime panic). -/
inductive CKError where
  | panicOOB
  | invalidReference
deriving DecidableEq, Repr

/-- The checksum fan-out (lines 175–195): for each ordered source, look up
`refs[s.index]`, require the immutable kind, and take
`contenthash.Checksum(ref, s.selector)`, modelled as the pair
(content, selector). -/
def computeDgsts (refs : List Reference) : List Src → Except CKError (List (Nat × String))
  | [] => .ok []
  | s :: rest =>
    match refs.get? s.index with
    | none => .error .panicOOB
    | some r =>
      match toImmutableRefOpt r with
      | none => .error .invalidReference
      | some c =>
        match computeDgsts refs rest with
        | .ok ds => .ok ((c, s.selector) :: ds)
        | .error e => .error e

/-- `inputKeys[i] = cacheKeys[skipped[i]]` for one candidate key list;
`none` models the out-of-range panic. -/
def getSkippedKeys (ck : List Nat) : List Nat → Option (List Nat)
  | [] => some []
  | j :: rest =>
    match ck.get? j with
    | none => none
    | some k => (getSkippedKeys ck rest).map (k :: ·)

/-- The record marshalled for one refined key
(`{Type, Sources, Inputs, Exec}`); per the modelling convention the
refined key is this record. -/
structure ContentKeyRecord where
  typ : String
  sources : List (Nat × String)
  inputKeys : List Nat
  exec : ExecOp
deriving DecidableEq, Repr

/-- The per-candidate loop of `ContentKeys` (lines 197–218). -/
def mkCandidateKeys (op : ExecOp) (dgsts : List (Nat × String)) (skipped : List Nat) :
    List (List Nat) → Except CKError (List ContentKeyRecord)
  | [] => .ok []
  | ck :: rest =>
    match getSkippedKeys ck skipped with
    | none => .error .panicOOB
    | some ks =>
      match mkCandidateKeys op dgsts skipped rest with
      | .ok out => .ok (⟨execCacheType, dgsts, ks, op⟩ :: out)
      | .error e => .error e

/-- The deterministically ordered sequence of distinct qualifying
(index, selector) pairs: the map contents sorted primarily by input index,
secondarily by selector (lines 163–173). -/
def srcSeq (op : ExecOp) : List Src :=
  List.insertionSort srcLe (classifyMounts op.mounts).srcs

/-- Model of `execOp.ContentKeys`.  `inputs` holds one structural-key list
per upstream cache candidate (keys are opaque digests, modelled as `Nat`),
`refs` the resolved input references.  An empty result models the
`nil, nil` returns. -/
def ContentKeys (op : ExecOp) (inputs : List (List Nat)) (refs : List Reference) :
    Except CKError (List ContentKeyRecord) :=
  if refs.length = 0 then .ok []
  else if (classifyMounts op.mounts).skip then .ok []
  else if (srcSeq op).any (fun s => refs.length ≤ s.index) then .error .panicOOB
  else
    match computeDgsts refs (srcSeq op) with
    | .error e => .error e
    | .ok dgsts => mkCandidateKeys op dgsts (classifyMounts op.mounts).skipped inputs

/-! ### Run (`execOp.Run`) -/

/-- A mountable source (`cache.Mountable`): the immutable input reference,
or an active (mutable) reference freshly allocated by `cm.New(ctx, ref)`;
the active one records its allocation id and the seeding input content. -/
inductive Mountable where
  | imm (content : Nat)
  | active (id : Nat) (seed : Option Nat)
deriving DecidableEq, Repr

/-- One entry of the auxiliary mount list handed to the worker
(`worker.Mount`). -/
structure WMount where
  src : Option Mountable
  dest : String
  readonly : Bool
  selector : String
deriving DecidableEq, Repr

/-- The comparison used by `sort.Slice` over the auxiliary mounts:
by destination path. -/
def destLe (a b : WMount) : Prop := strLe a.dest b.dest

instance : DecidableRel destLe := fun a b => by
  unfold destLe; exact inferInstance

instance : IsTotal WMount destLe :=
  ⟨fun a b => strLeb_total a.dest.data b.dest.data⟩

instance : IsTrans WMount destLe :=
  ⟨fun _ _ _ h1 h2 => strLeb_trans _ _ _ h1 h2⟩

/-- A pending output reference: a shared clone of a readonly input
(`newSharedRef(ref).Clone()`), or the active mutable reference returned by
`cm.New`; both carry the allocation id of the new handle. -/
inductive OutRef where
  | shared (id : Nat) (content : Nat)
  | active (id : Nat) (seed : Option Nat)
deriving DecidableEq, Repr

/-- Allocation id of a pending output. -/
def OutRef.rid : OutRef → Nat
  | .shared i _ => i
  | .active i _ => i

/-- Errors of the `Run` model.  `panicOOB` again marks a reachable
out-of-range slice access, not a Go error return. -/
inductive RunError where
  | missingInput (i : Nat)
  | invalidReference
  | panicOOB
  | newFailed
  | workerFailed
  | commitFailed (id : Nat)
deriving DecidableEq, Repr

/-- Failure oracles for the external collaborators of `Run`: whether the
allocation `cm.New` numbered by its fresh id fails, whether the worker
`Exec` call fails, and whether `Commit` of a given pending output fails. -/
structure RunEnv where
  newFails : Nat → Bool
  execFails : Bool
  commitFails : Nat → Bool

/-- State of the mount loop of `Run` (lines 52–97): allocation counter,
ids allocated so far, pending outputs, auxiliary mounts, root mountable. -/
structure LoopSt where
  nextId : Nat
  alloc : List Nat
  outputs : List OutRef
  wmounts : List WMount
  root : Option Mountable
deriving Repr

/-- The input-resolution step of one mount (lines 66–79), including the
faithful off-by-one bound check `int(m.Input) > len(inputs)`: the result
is the content of the input when the mount has one. -/
def refOf (inputs : List Reference) (m : Mount) : Except RunError (Option Nat) :=
  match m.input with
  | none => .ok none
  | some idx =>
    if idx > inputs.length then .error (.missingInput idx)
    else
      match inputs.get? idx with
      | none => .error .panicOOB
      | some r =>
        match toImmutableRefOpt r with
        | none => .error .invalidReference
        | some c => .ok (some c)

/-- The output-disposition step of one mount (lines 80–91): a readonly
non-root mount with an input contributes a shared clone of the input as a
pending output; every other mount with an output gets a fresh active
reference from `cm.New(ctx, ref)`, which also becomes the mountable. -/
def mountOutPhase (env : RunEnv) (m : Mount) (ref : Option Nat) (st : LoopSt) :
    Except RunError (LoopSt × Option Mountable) :=
  if m.output = true then
    if m.readonly = true ∧ ref.isSome = true ∧ m.dest ≠ RootMount then
      match ref with
      | some c =>
        .ok ({ st with
                nextId := st.nextId + 1
                alloc := st.alloc ++ [st.nextId]
                outputs := st.outputs ++ [.shared st.nextId c] },
             some (.imm c))
      | none => .error .invalidReference
    else
      if env.newFails st.nextId then .error .newFailed
      else
        .ok ({ st with
                nextId := st.nextId + 1
                alloc := st.alloc ++ [st.nextId]
                outputs := st.outputs ++ [.active st.nextId ref] },
             some (.active st.nextId ref))
  else
    .ok (st, ref.map .imm)

/-- One iteration of the mount loop (lines 65–97). -/
def mountStep (env : RunEnv) (inputs : List Reference) (m : Mount) (st : LoopSt) :
    Except RunError LoopSt :=
  match refOf inputs m with
  | .error e => .error e
  | .ok ref =>
    match mountOutPhase env m ref st with
    | .error e => .error e
    | .ok (st2, mountable) =>
      if m.dest = RootMount then
        .ok { st2 with root := mountable }
      else
        .ok { st2 with wmounts := st2.wmounts ++ [⟨mountable, m.dest, m.readonly, m.selector⟩] }

/-- The full mount loop; an error carries the loop state at the moment of
the early return (needed for the deferred releases). -/
def mountLoop (env : RunEnv) (inputs : List Reference) :
    List Mount → LoopSt → Except (RunError × LoopSt) LoopSt
  | [], st => .ok st
  | m :: rest, st =>
    match mountStep env inputs m st with
    | .error e => .error (e, st)
    | .ok st2 => mountLoop env inputs rest st2

/-- The commit loop (lines 117–129).  On success it returns the final
result ids in output order; on a commit failure it returns the failing id
together with the outputs not yet set to nil (the failing one onward),
which are the ones the deferred loop will release. -/
def commitLoop (env : RunEnv) : List OutRef → Except (Nat × List OutRef) (List Nat)
  | [] => .ok []
  | o :: rest =>
    match o with
    | .active id seed =>
      if env.commitFails id then .error (id, .active id seed :: rest)
      else
        match commitLoop env rest with
        | .ok refs => .ok (id :: refs)
        | .error p => .error p
    | .shared id c =>
      match commitLoop env rest with
      | .ok refs => .ok (id :: refs)
      | .error p => .error p

/-- Observable outcome of one `Run` call: the returned value, the ids
allocated during the call, the ids released by the deferred loop on
return, and the worker invocation (root mountable and sorted auxiliary
mounts) when it happened. -/
structure RunOutcome where
  result : Except RunError (List Nat)
  allocated : List Nat
  released : List Nat
  worker : Option (Option Mountable × List WMount)

/-- Model of `execOp.Run`. -/
def Run (op : ExecOp) (env : RunEnv) (inputs : List Reference) : RunOutcome :=
  match mountLoop env inputs op.mounts ⟨0, [], [], [], none⟩ with
  | .error (e, st) =>
    ⟨.error e, st.alloc, st.outputs.map OutRef.rid, none⟩
  | .ok st =>
    let sorted := List.insertionSort destLe st.wmounts
    if env.execFails then
      ⟨.error .workerFailed, st.alloc, st.outputs.map OutRef.rid, some (st.root, sorted)⟩
    else
      match commitLoop env st.outputs with
      | .ok refs => ⟨.ok refs, st.alloc, [], some (st.root, sorted)⟩
      | .error (id, remaining) =>
        ⟨.error (.commitFailed id), st.alloc, remaining.map OutRef.rid, some (st.root, sorted)⟩

/-- Projection of a mountable that forgets the identity of a freshly
allocated reference but keeps the content it was seeded from (two `Run`
calls allocate distinct fresh references even on identical declarations,
so worker mount lists are compared up to this renaming). -/
inductive ProjSrc where
  | noSrc
  | imm (content : Nat)
  | fresh (seed : Option Nat)
deriving DecidableEq, Repr

def projOfOpt : Option Nat → ProjSrc
  | some c => .imm c
  | none => .noSrc

def projMountable : Option Mountable → ProjSrc
  | none => .noSrc
  | some (.imm c) => .imm c
  | some (.active _ seed) => .fresh seed

/-- A worker mount up to renaming of fresh references. -/
structure PWMount where
  src : ProjSrc
  dest : String
  readonly : Bool
  selector : String
deriving DecidableEq, Repr

def projWM (w : WMount) : PWMount :=
  ⟨projMountable w.src, w.dest, w.readonly, w.selector⟩

/-- The content of the input referenced by a mount, when the mount has one
of the immutable kind. -/
def refContentAt (inputs : List Reference) (m : Mount) : Option Nat :=
  match m.input with
  | none => none
  | some i =>
    match inputs.get? i with
    | some (.imm c) => some c
    | _ => none

/-- What one mount declaration contributes to the worker's auxiliary mount
list, up to fresh-reference identity: a function of the declaration and
the resolved inputs alone. -/
def staticProj (m : Mount) (ref : Option Nat) : ProjSrc :=
  if m.output = true then
    if m.readonly = true ∧ ref.isSome = true ∧ m.dest ≠ RootMount then projOfOpt ref
    else .fresh ref
  else projOfOpt ref

def staticPWM (inputs : List Reference) (m : Mount) : PWMount :=
  ⟨staticProj m (refContentAt inputs m), m.dest, m.readonly, m.selector⟩

/-- The sort key on projected worker mounts. -/
def pdestLe (a b : PWMount) : Prop := strLe a.dest b.dest

/-- Strict destination order on projected worker mounts. -/
def pdestLt (a b : PWMount) : Prop := strLeb b.dest.data a.dest.data = false

instance : IsAntisymm PWMount pdestLt := by
  constructor
  intro a b h1 h2
  rcases strLeb_total a.dest.data b.dest.data with h | h
  · exact absurd h (by simp [pdestLt] at h2; simp [h2])
  · exact absurd h (by simp [pdestLt] at h1; simp [h1])

/-! ### Vertex progress notification (`solver/vertex.go`)

The DAG is a function `G` from vertex id to the list of its input vertex
ids.  The mutable per-vertex `clientVertex.Started` fields are modelled as
the list of started vertex ids; each call returns the new state together
with the progress events it emitted, in emission order.  Go's recursion is
bounded by the acyclic graph; the model uses explicit fuel, and the
theorems require fuel sufficient for the rank of the vertex. -/

/-- A progress event as written to the progress sink: which vertex, and
for a completion, the cached flag. -/
inductive PEvent where
  | started (v : Nat)
  | completed (v : Nat) (cached : Bool)
deriving DecidableEq, Repr

/-- Setting `clientVertex.Started` (idempotent on the started set). -/
def insertStarted (v : Nat) (s : List Nat) : List Nat :=
  if v ∈ s then s else v :: s

mutual
/-- Model of `vertex.notifyCompleted` (lines 95–109): recursively mark
cached ancestors, backfill `Started`, record completion and emit the
completion event. -/
def notifyCompleted (G : Nat → List Nat) : Nat → Nat → Bool → List Nat →
    List Nat × List PEvent
  | 0, _, _, s => (s, [])
  | f+1, v, c, s =>
    let p := recursiveMarkCached G f v s
    (insertStarted v p.1, p.2 ++ [PEvent.completed v c])
termination_by f v c s => (f, 0)

/-- Model of `vertex.recursiveMarkCached` (lines 111–121). -/
def recursiveMarkCached (G : Nat → List Nat) : Nat → Nat → List Nat →
    List Nat × List PEvent
  | 0, _, s => (s, [])
  | f+1, v, s => markInputs G f (G v) s
termination_by f v s => (f, 0)

/-- The loop body of `recursiveMarkCached` over the input list: an input
not yet started is recursively marked and then completed as cached. -/
def markInputs (G : Nat → List Nat) : Nat → List Nat → List Nat →
    List Nat × List PEvent
  | _, [], s => (s, [])
  | f, u :: rest, s =>
    if u ∈ s then markInputs G f rest s
    else
      let p1 := recursiveMarkCached G f u s
      let p2 := notifyCompleted G f u true p1.1
      let p3 := markInputs G f rest p2.1
      (p3.1, p1.2 ++ p2.2 ++ p3.2)
termination_by f l s => (f, l.length + 1)
end

/-- Model of `vertex.notifyStarted` (lines 85–93): mark un-started
ancestors cached, record `Started`, clear `Completed`, emit the start
event. -/
def notifyStarted (G : Nat → List Nat) (f v : Nat) (s : List Nat) :
    List Nat × List PEvent :=
  let p := recursiveMarkCached G f v s
  (insertStarted v p.1, p.2 ++ [PEvent.started v])

/-- The started set only grows. -/
def evMono (s s2 : List Nat) : Prop := ∀ x ∈ s, x ∈ s2

/-- Every vertex started during a call either was already started or has a
completion event in the emitted tail. -/
def evChar (s s2 : List Nat) (es : List PEvent) : Prop :=
  ∀ x ∈ s2, x ∈ s ∨ ∃ b, PEvent.completed x b ∈ es

/-- Every emitted event is a completion with `cached = true`. -/
def allCachedMarks (es : List PEvent) : Prop :=
  ∀ e ∈ es, ∃ u, e = PEvent.completed u true

/-- Ancestors before descendants: every completion event in the emitted
sequence is preceded by a completion of each of its graph inputs, unless
that input was already started when the call began. -/
def OrderedFrom (G : Nat → List Nat) (s : List Nat) (es : List PEvent) : Prop :=
  ∀ ea u b eb, es = ea ++ PEvent.completed u b :: eb →
    ∀ w ∈ G u, w ∈ s ∨ ∃ b2, PEvent.completed w b2 ∈ ea

/-- The behaviour of `notifyCompleted` proved by the fuel induction. -/
def NCspec (G : Nat → List Nat) (rk : Nat → Nat) (f : Nat) : Prop :=
  ∀ v c s,
    evMono s (notifyCompleted G f v c s).1
    ∧ evChar s (notifyCompleted G f v c s).1 (notifyCompleted G f v c s).2
    ∧ ((notifyCompleted G f v c s).2 = []
        ∨ ∃ e1, (notifyCompleted G f v c s).2 = e1 ++ [PEvent.completed v c]
            ∧ allCachedMarks e1)
    ∧ (1 ≤ f → v ∈ (notifyCompleted G f v c s).1)
    ∧ (2 * rk v + 2 ≤ f →
        (∀ u ∈ G v, u ∈ (notifyCompleted G f v c s).1)
        ∧ OrderedFrom G s (notifyCompleted G f v c s).2)

/-- The behaviour of `recursiveMarkCached` proved by the fuel induction. -/
def RMCspec (G : Nat → List Nat) (rk : Nat → Nat) (f : Nat) : Prop :=
  ∀ v s,
    evMono s (recursiveMarkCached G f v s).1
    ∧ evChar s (recursiveMarkCached G f v s).1 (recursiveMarkCached G f v s).2
    ∧ allCachedMarks (recursiveMarkCached G f v s).2
    ∧ (2 ≤ f → ∀ u ∈ G v, u ∈ (recursiveMarkCached G f v s).1)
    ∧ (2 * rk v + 1 ≤ f → OrderedFrom G s (recursiveMarkCached G f v s).2)

/-- The behaviour of `markInputs` proved by the fuel induction. -/
def MLspec (G : Nat → List Nat) (rk : Nat → Nat) (f : Nat) : Prop :=
  ∀ l s,
    evMono s (markInputs G f l s).1
    ∧ evChar s (markInputs G f l s).1 (markInputs G f l s).2
    ∧ allCachedMarks (markInputs G f l s).2
    ∧ (1 ≤ f → ∀ u ∈ l, u ∈ (markInputs G f l s).1)
    ∧ ((∀ u ∈ l, 2 * rk u + 2 ≤ f) → OrderedFrom G s (markInputs G f l s).2)

/-- A three-vertex chain graph 2 → 1 → 0 used as a witness fixture. -/
def chainG : Nat → List Nat :=
  fun n => if n = 2 then [1] else if n = 1 then [0] else []

/-! ### Decidable equality of `Except` results (for concrete evaluation) -/

instance {ε α : Type _} [DecidableEq ε] [DecidableEq α] : DecidableEq (Except ε α) := fun x y =>
  match x, y with
  | .ok a, .ok b => if h : a = b then .isTrue (by rw [h]) else .isFalse (by simp [h])
  | .error e, .error f => if h : e = f then .isTrue (by rw [h]) else .isFalse (by simp [h])
  | .ok _, .error _ => .isFalse (by simp)
  | .error _, .ok _ => .isFalse (by simp)

/-! ### Concrete fixtures used by counterexamples and witnesses -/

/-- An environment in which no external collaborator fails. -/
def envOk : RunEnv := ⟨fun _ => false, false, fun _ => false⟩

/-- An environment in which the commit of the pending output with
allocation id 1 fails and everything else succeeds. -/
def envCommit1Fails : RunEnv := ⟨fun _ => false, false, fun i => i == 1⟩

/-- A fixed process metadata record. -/
def metaSh : ExecMeta := ⟨["sh", "-c", "true"], ["PATH=/bin"], "/"⟩

/-! ### Classification lemmas (`ContentKeys`, lines 140–161) -/

theorem classStep_skip (c : Classified) (m : Mount) :
    (classStep c m).skip = if qualifies m then false else c.skip := by
  obtain ⟨inp, sel, dest, out, ro⟩ := m
  cases inp with
  | none => simp [classStep, qualifies]
  | some idx =>
    have hq : qualifies ⟨some idx, sel, dest, out, ro⟩ ↔ (dest ≠ RootMount ∧ ro = true) := by
      simp [qualifies]
    by_cases h : dest ≠ RootMount ∧ ro = true
    · rw [if_pos (hq.mpr h)]
      simp [classStep, h]
    · rw [if_neg (fun hc => h (hq.mp hc))]
      simp [classStep, h]

theorem classifyFrom_skip_of_none (c : Classified) (ms : List Mount)
    (hc : c.skip = true) (h : ∀ m ∈ ms, ¬ qualifies m) :
    (classifyFrom c ms).skip = true := by
  induction ms generalizing c with
  | nil => exact hc
  | cons m rest ih =>
    apply ih
    · rw [classStep_skip]
      simp [h m (by simp)]
      exact hc
    · intro x hx; exact h x (by simp [hx])

/-- C8 helper: with no qualifying mount the `skip` flag survives the loop. -/
theorem classifyMounts_skip (ms : List Mount) (h : ∀ m ∈ ms, ¬ qualifies m) :
    (classifyMounts ms).skip = true :=
  classifyFrom_skip_of_none _ _ rfl h

/-- C10: with an empty resolved-input list, `ContentKeys` returns no
refined keys and no error, whatever the operation and the candidates. -/
theorem contentKeys_empty_refs (op : ExecOp) (inputs : List (List Nat)) :
    ContentKeys op inputs [] = .ok [] := by
  simp [ContentKeys]

/-- C8: an operation none of whose mounts has an input, a non-root
destination and the readonly flag at once yields no refined keys and no
error, for every candidate key set and resolved input list. -/
theorem contentKeys_not_applicable (op : ExecOp) (inputs : List (List Nat))
    (refs : List Reference) (h : ∀ m ∈ op.mounts, ¬ qualifies m) :
    ContentKeys op inputs refs = .ok [] := by
  unfold ContentKeys
  by_cases hr : refs.length = 0
  · simp [hr]
  · simp [hr, classifyMounts_skip op.mounts h]

/-- C8 witness: a concrete operation with only a root mount and a
read-write non-root mount. -/
theorem contentKeys_not_applicable_witness :
    ContentKeys ⟨metaSh, [⟨some 0, "", "/", true, false⟩, ⟨some 1, "", "/m", true, false⟩]⟩
      [[5, 6]] [.imm 3, .imm 4] = .ok [] :=
  contentKeys_not_applicable _ _ _ (by decide)

/-- C9: the structural cache key is a pure function of the declared
definition: it does not depend on the cache-manager or worker handles, on
input content, or on any resolved references (none of which it even
consults). -/
theorem cacheKey_pure (e1 e2 : ExecOpHandle) (h : e1.op = e2.op) :
    CacheKey e1 = CacheKey e2 := by
  simp [CacheKey, h]

/-- C9 witness: two handles over the same definition with different
collaborator handles. -/
theorem cacheKey_pure_witness :
    CacheKey ⟨⟨metaSh, []⟩, 0, 1⟩ = CacheKey ⟨⟨metaSh, []⟩, 7, 8⟩ :=
  cacheKey_pure _ _ (by decide)

/-- C2: evaluation of `Run` at the failing input of the off-by-one bound
check `int(m.Input) > len(inputs)`: an input index equal to the length of
the resolved input list passes the check and the subsequent
`inputs[int(m.Input)]` access is out of range (a crash), while an index
strictly greater than the length is caught by the `missing input` error
return. -/
theorem run_input_boundary_crashes :
    (Run ⟨metaSh, [⟨some 1, "", "/", false, false⟩]⟩ envOk [.imm 3]).result
        = .error .panicOOB
    ∧ (Run ⟨metaSh, [⟨some 2, "", "/", false, false⟩]⟩ envOk [.imm 3]).result
        = .error (.missingInput 2) := by
  constructor <;> rfl

/-- C3 counterexample: a qualifying readonly non-root mount whose input
index 1 has no entry in the single-element resolved input list makes
`ContentKeys` perform an out-of-range access (a crash), not return the
invalid-reference error the claim requires. -/
theorem contentKeys_oob_cex :
    ContentKeys ⟨metaSh, [⟨some 1, "", "/src", false, true⟩]⟩ [[]] [.imm 0]
        = .error .panicOOB
    ∧ ContentKeys ⟨metaSh, [⟨some 1, "", "/src", false, true⟩]⟩ [[]] [.imm 0]
        ≠ .error .invalidReference := by
  constructor
  · rfl
  · intro h
    exact absurd h (by decide)

/-- C1 counterexample: two operations whose declared definitions differ
(only in the command arguments) but which mount byte-identical content at
the same readonly path with the same selector, given the same (empty)
skipped-input keys and the same candidate set, produce different refined
keys, because `ContentKeys` marshals the whole definition (`Exec: e.op`)
into every refined key. -/
theorem contentKeys_def_dependent_cex :
    ContentKeys ⟨⟨["a"], [], "/"⟩, [⟨some 0, "", "/src", false, true⟩]⟩ [[]] [.imm 7]
      ≠ ContentKeys ⟨⟨["b"], [], "/"⟩, [⟨some 0, "", "/src", false, true⟩]⟩ [[]] [.imm 7] := by
  intro h
  exact absurd h (by decide)

/-- C4 counterexample: with two pending outputs and a commit failure on
the second, the first output was already committed and moved to the
pending result list, so on the error return it is neither released nor
returned to the caller, while only the failing output is released. -/
theorem run_commit_leak_cex :
    (Run ⟨metaSh, [⟨none, "", "/", true, false⟩, ⟨none, "", "/o", true, false⟩]⟩
        envCommit1Fails []).result = .error (.commitFailed 1)
    ∧ (Run ⟨metaSh, [⟨none, "", "/", true, false⟩, ⟨none, "", "/o", true, false⟩]⟩
        envCommit1Fails []).allocated = [0, 1]
    ∧ (Run ⟨metaSh, [⟨none, "", "/", true, false⟩, ⟨none, "", "/o", true, false⟩]⟩
        envCommit1Fails []).released = [1] := by
  refine ⟨rfl, rfl, rfl⟩

/-! ### C1: what `ContentKeys` reads from the resolved references -/

theorem computeDgsts_content (refs1 refs2 : List Reference)
    (h : refs1.map toImmutableRefOpt = refs2.map toImmutableRefOpt) :
    ∀ srcs, computeDgsts refs1 srcs = computeDgsts refs2 srcs := by
  intro srcs
  induction srcs with
  | nil => rfl
  | cons s rest ih =>
    have hg : (refs1.get? s.index).map toImmutableRefOpt
        = (refs2.get? s.index).map toImmutableRefOpt := by
      rw [← List.get?_map, ← List.get?_map, h]
    simp only [computeDgsts]
    cases h1 : refs1.get? s.index with
    | none =>
      cases h2 : refs2.get? s.index with
      | none => rfl
      | some r2 => rw [h1, h2] at hg; simp at hg
    | some r1 =>
      cases h2 : refs2.get? s.index with
      | none => rw [h1, h2] at hg; simp at hg
      | some r2 =>
        rw [h1, h2] at hg
        simp only [Option.map_some'] at hg
        have hf : toImmutableRefOpt r1 = toImmutableRefOpt r2 := by
          injection hg
        dsimp only
        rw [hf, ih]

/-- C1 amended: `ContentKeys` reads the resolved references only through
their number and through `toImmutableRef` (kind and content), so two calls
on the same operation and candidates whose reference lists agree on kind
and content — in particular, distinct references to byte-identical
content — produce identical refined keys. -/
theorem contentKeys_content_determined (op : ExecOp) (inputs : List (List Nat))
    (refs1 refs2 : List Reference)
    (h : refs1.map toImmutableRefOpt = refs2.map toImmutableRefOpt) :
    ContentKeys op inputs refs1 = ContentKeys op inputs refs2 := by
  have hlen : refs1.length = refs2.length := by
    simpa using congrArg List.length h
  unfold ContentKeys
  rw [hlen, computeDgsts_content refs1 refs2 h]

/-- C1 witness: two reference lists made of distinct handles carrying the
same content. -/
theorem contentKeys_content_determined_witness :
    ContentKeys ⟨metaSh, [⟨some 0, "", "/src", false, true⟩, ⟨some 1, "", "/rw", true, false⟩]⟩
        [[4, 5]] [.imm 7, .other 0]
      = ContentKeys ⟨metaSh, [⟨some 0, "", "/src", false, true⟩, ⟨some 1, "", "/rw", true, false⟩]⟩
        [[4, 5]] [.imm 7, .other 1] :=
  contentKeys_content_determined _ _ _ _ (by decide)

/-! ### C3: which accesses into the resolved references are guarded -/

theorem classifyFrom_skip_srcs (ms : List Mount) (c : Classified)
    (hc : c.skip = true → c.srcs = []) :
    (classifyFrom c ms).skip = true → (classifyFrom c ms).srcs = [] := by
  induction ms generalizing c with
  | nil => exact hc
  | cons m rest ih =>
    apply ih
    obtain ⟨inp, sel, dest, out, ro⟩ := m
    cases inp with
    | none => simpa [classStep] using hc
    | some idx =>
      by_cases h : dest ≠ RootMount ∧ ro = true
      · simp [classStep, h]
      · simpa [classStep, h] using hc

/-- With no qualifying pair collected, the `skip` flag forces an empty
source list. -/
theorem classifyMounts_skip_srcs (ms : List Mount) :
    (classifyMounts ms).skip = true → (classifyMounts ms).srcs = [] :=
  classifyFrom_skip_srcs ms _ (fun _ => rfl)

theorem computeDgsts_in_range (refs : List Reference) (srcs : List Src)
    (h : ∀ s ∈ srcs, s.index < refs.length) :
    computeDgsts refs srcs ≠ .error .panicOOB := by
  induction srcs with
  | nil => simp [computeDgsts]
  | cons s rest ih =>
    simp only [computeDgsts]
    cases h1 : refs.get? s.index with
    | none =>
      rw [List.get?_eq_none] at h1
      exact absurd (h s (by simp)) (by omega)
    | some r =>
      cases h2 : toImmutableRefOpt r with
      | none => simp [h2]
      | some c =>
        cases h3 : computeDgsts refs rest with
        | ok ds => simp [h2, h3]
        | error e =>
          have he : e ≠ CKError.panicOOB := by
            intro he
            exact ih (fun x hx => h x (by simp [hx])) (he ▸ h3)
          simp [h2, h3, he]

theorem getSkippedKeys_covered (ck : List Nat) (skipped : List Nat)
    (h : ∀ j ∈ skipped, j < ck.length) :
    ∃ ks, getSkippedKeys ck skipped = some ks := by
  induction skipped with
  | nil => exact ⟨[], rfl⟩
  | cons j rest ih =>
    simp only [getSkippedKeys]
    cases h1 : ck.get? j with
    | none =>
      rw [List.get?_eq_none] at h1
      exact absurd (h j (by simp)) (by omega)
    | some k =>
      obtain ⟨ks, hks⟩ := ih (fun x hx => h x (by simp [hx]))
      exact ⟨k :: ks, by simp [h1, hks]⟩

theorem mkCandidateKeys_covered (op : ExecOp) (dgsts : List (Nat × String))
    (skipped : List Nat) (inputs : List (List Nat))
    (h : ∀ ck ∈ inputs, ∀ j ∈ skipped, j < ck.length) :
    ∃ out, mkCandidateKeys op dgsts skipped inputs = .ok out := by
  induction inputs with
  | nil => exact ⟨[], rfl⟩
  | cons ck rest ih =>
    simp only [mkCandidateKeys]
    obtain ⟨ks, hks⟩ := getSkippedKeys_covered ck skipped (h ck (by simp))
    obtain ⟨out, hout⟩ := ih (fun x hx => h x (by simp [hx]))
    refine ⟨⟨execCacheType, dgsts, ks, op⟩ :: out, ?_⟩
    rw [hks, hout]

theorem computeDgsts_wrong_kind (refs : List Reference) (srcs : List Src)
    (hin : ∀ s ∈ srcs, s.index < refs.length)
    (hbad : ∃ s ∈ srcs, ∃ r, refs.get? s.index = some r ∧ toImmutableRefOpt r = none) :
    computeDgsts refs srcs = .error .invalidReference := by
  induction srcs with
  | nil => simp at hbad
  | cons s rest ih =>
    simp only [computeDgsts]
    cases h1 : refs.get? s.index with
    | none =>
      rw [List.get?_eq_none] at h1
      exact absurd (hin s (by simp)) (by omega)
    | some r =>
      cases h2 : toImmutableRefOpt r with
      | none => simp [h2]
      | some c =>
        obtain ⟨s2, hs2, r2, hr2, hf2⟩ := hbad
        rcases List.mem_cons.1 hs2 with rfl | hs3
        · rw [h1] at hr2
          injection hr2 with he
          subst he
          rw [h2] at hf2
          simp at hf2
        · have hrest := ih (fun x hx => hin x (by simp [hx])) ⟨s2, hs3, r2, hr2, hf2⟩
          simp [h2, hrest]

/-- C3 amended: the accesses of `ContentKeys` into the resolved reference
list are guarded only by the `toImmutableRef` kind check.  When every
qualifying source index is in range (and every candidate key list covers
the skipped indices) no out-of-range access happens; one qualifying source
index with no entry in `refs` reaches the unguarded `refs[s.index]` access
and crashes instead of returning the invalid-reference error; and an
in-range reference of the wrong storage kind does yield the
invalid-reference error. -/
theorem contentKeys_access_guard (op : ExecOp) (inputs : List (List Nat))
    (refs : List Reference) (hnz : refs ≠ []) :
    ((∀ s ∈ (classifyMounts op.mounts).srcs, s.index < refs.length) →
      (∀ ck ∈ inputs, ∀ j ∈ (classifyMounts op.mounts).skipped, j < ck.length) →
      ContentKeys op inputs refs ≠ .error .panicOOB)
    ∧ ((∃ s ∈ (classifyMounts op.mounts).srcs, refs.length ≤ s.index) →
      ContentKeys op inputs refs = .error .panicOOB)
    ∧ ((∀ s ∈ (classifyMounts op.mounts).srcs, s.index < refs.length) →
      (∃ s ∈ (classifyMounts op.mounts).srcs, ∃ r, refs.get? s.index = some r
        ∧ toImmutableRefOpt r = none) →
      ContentKeys op inputs refs = .error .invalidReference) := by
  have hlen : ¬ refs.length = 0 := by
    simpa using fun hl => hnz (List.length_eq_zero.1 hl)
  have hmem : ∀ s, s ∈ srcSeq op ↔ s ∈ (classifyMounts op.mounts).srcs := fun s =>
    (List.perm_insertionSort srcLe (classifyMounts op.mounts).srcs).mem_iff
  refine ⟨?_, ?_, ?_⟩
  · intro hin hck
    unfold ContentKeys
    rw [if_neg hlen]
    by_cases hskip : (classifyMounts op.mounts).skip
    · simp [hskip]
    · rw [if_neg hskip]
      have hany : ((srcSeq op).any (fun s => refs.length ≤ s.index)) = false := by
        rw [List.any_eq_false]
        intro s hs
        simp only [decide_eq_true_eq]
        have := hin s ((hmem s).1 hs)
        omega
      rw [if_neg (by simp [hany])]
      cases hd : computeDgsts refs (srcSeq op) with
      | error e =>
        have : e ≠ CKError.panicOOB := by
          intro he
          exact computeDgsts_in_range refs (srcSeq op)
            (fun s hs => hin s ((hmem s).1 hs)) (he ▸ hd)
        simp [this]
      | ok dgsts =>
        obtain ⟨out, hout⟩ := mkCandidateKeys_covered op dgsts _ inputs hck
        simp [hout]
  · rintro ⟨s, hs, hge⟩
    have hne : (classifyMounts op.mounts).srcs ≠ [] := by
      intro he
      rw [he] at hs
      exact absurd hs (List.not_mem_nil s)
    have hskip : (classifyMounts op.mounts).skip = false := by
      cases hsk : (classifyMounts op.mounts).skip
      · rfl
      · exact absurd (classifyMounts_skip_srcs op.mounts hsk) hne
    have hany : ((srcSeq op).any (fun s => refs.length ≤ s.index)) = true :=
      List.any_eq_true.2 ⟨s, (hmem s).2 hs, by simpa using hge⟩
    unfold ContentKeys
    rw [if_neg hlen, if_neg (by simp [hskip]), if_pos (by simp [hany])]
  · intro hin hbad
    have hne : (classifyMounts op.mounts).srcs ≠ [] := by
      obtain ⟨s0, hs0, _⟩ := hbad
      intro he
      rw [he] at hs0
      exact absurd hs0 (List.not_mem_nil s0)
    have hskip : (classifyMounts op.mounts).skip = false := by
      cases hsk : (classifyMounts op.mounts).skip
      · rfl
      · exact absurd (classifyMounts_skip_srcs op.mounts hsk) hne
    have hany : ((srcSeq op).any (fun s => refs.length ≤ s.index)) = false := by
      rw [List.any_eq_false]
      intro s hs
      simp only [decide_eq_true_eq]
      have := hin s ((hmem s).1 hs)
      omega
    have hd : computeDgsts refs (srcSeq op) = .error .invalidReference := by
      apply computeDgsts_wrong_kind
      · intro s hs
        exact hin s ((hmem s).1 hs)
      · obtain ⟨s2, hs2, hrest⟩ := hbad
        exact ⟨s2, (hmem s2).2 hs2, hrest⟩
    unfold ContentKeys
    rw [if_neg hlen, if_neg (by simp [hskip]), if_neg (by simp [hany]), hd]

/-! ### C4: the release discipline of `Run` -/

theorem mountOutPhase_inv (env : RunEnv) (m : Mount) (ref : Option Nat)
    (st st3 : LoopSt) (mnt : Option Mountable)
    (h : mountOutPhase env m ref st = .ok (st3, mnt))
    (hi : st.alloc = st.outputs.map OutRef.rid) :
    st3.alloc = st3.outputs.map OutRef.rid
    ∧ st3.wmounts = st.wmounts ∧ st3.root = st.root := by
  unfold mountOutPhase at h
  split_ifs at h with ho hc hn
  · cases ref with
    | none => exact absurd h (by simp)
    | some c =>
      simp only [Except.ok.injEq, Prod.mk.injEq] at h
      obtain ⟨hA, hB⟩ := h
      subst hA
      refine ⟨?_, rfl, rfl⟩
      simp [hi, OutRef.rid]
  · simp only [Except.ok.injEq, Prod.mk.injEq] at h
    obtain ⟨hA, hB⟩ := h
    subst hA
    refine ⟨?_, rfl, rfl⟩
    simp [hi, OutRef.rid]
  · simp only [Except.ok.injEq, Prod.mk.injEq] at h
    obtain ⟨hA, hB⟩ := h
    subst hA
    exact ⟨hi, rfl, rfl⟩

theorem mountStep_inv (env : RunEnv) (inputs : List Reference) (m : Mount)
    (st st2 : LoopSt) (h : mountStep env inputs m st = .ok st2)
    (hi : st.alloc = st.outputs.map OutRef.rid) :
    st2.alloc = st2.outputs.map OutRef.rid := by
  unfold mountStep at h
  cases hr : refOf inputs m with
  | error e => rw [hr] at h; exact absurd h (by simp)
  | ok ref =>
    rw [hr] at h
    dsimp only at h
    cases hp : mountOutPhase env m ref st with
    | error e => rw [hp] at h; exact absurd h (by simp)
    | ok pr =>
      obtain ⟨st3, mnt⟩ := pr
      rw [hp] at h
      dsimp only at h
      obtain ⟨h1, _, _⟩ := mountOutPhase_inv env m ref st st3 mnt hp hi
      split_ifs at h with hd
      · injection h with h4
        subst h4
        simpa using h1
      · injection h with h4
        subst h4
        simpa using h1

theorem mountLoop_inv (env : RunEnv) (inputs : List Reference) :
    ∀ (ms : List Mount) (st : LoopSt),
    st.alloc = st.outputs.map OutRef.rid →
    (∀ st2, mountLoop env inputs ms st = .ok st2 →
        st2.alloc = st2.outputs.map OutRef.rid)
    ∧ (∀ e st2, mountLoop env inputs ms st = .error (e, st2) →
        st2.alloc = st2.outputs.map OutRef.rid) := by
  intro ms
  induction ms with
  | nil =>
    intro st hi
    constructor
    · intro st2 h
      injection h with h
      exact h ▸ hi
    · intro e st2 h
      exact absurd h (by simp [mountLoop])
  | cons m rest ih =>
    intro st hi
    constructor
    · intro st2 h
      unfold mountLoop at h
      cases hs : mountStep env inputs m st with
      | error e => rw [hs] at h; exact absurd h (by simp)
      | ok st3 =>
        rw [hs] at h
        exact (ih st3 (mountStep_inv env inputs m st st3 hs hi)).1 st2 h
    · intro e st2 h
      unfold mountLoop at h
      cases hs : mountStep env inputs m st with
      | error e2 =>
        rw [hs] at h
        simp only [Except.error.injEq, Prod.mk.injEq] at h
        exact h.2 ▸ hi
      | ok st3 =>
        rw [hs] at h
        exact (ih st3 (mountStep_inv env inputs m st st3 hs hi)).2 e st2 h

theorem commitLoop_spec (env : RunEnv) : ∀ outs : List OutRef,
    (∀ refs, commitLoop env outs = .ok refs → refs = outs.map OutRef.rid)
    ∧ (∀ k rem, commitLoop env outs = .error (k, rem) → ∃ pre, outs = pre ++ rem) := by
  intro outs
  induction outs with
  | nil =>
    constructor
    · intro refs h
      injection h with h
      simp [h.symm]
    · intro k rem h
      exact absurd h (by simp [commitLoop])
  | cons o rest ih =>
    constructor
    · intro refs h
      cases o with
      | active id seed =>
        unfold commitLoop at h
        dsimp only at h
        by_cases hc : env.commitFails id = true
        · rw [if_pos hc] at h
          exact absurd h (by simp)
        · rw [if_neg hc] at h
          cases hr : commitLoop env rest with
          | ok refs2 =>
            rw [hr] at h
            injection h with h
            subst h
            simp [ih.1 refs2 hr, OutRef.rid]
          | error p => rw [hr] at h; exact absurd h (by simp)
      | shared id c =>
        unfold commitLoop at h
        dsimp only at h
        cases hr : commitLoop env rest with
        | ok refs2 =>
          rw [hr] at h
          injection h with h
          subst h
          simp [ih.1 refs2 hr, OutRef.rid]
        | error p => rw [hr] at h; exact absurd h (by simp)
    · intro k rem h
      cases o with
      | active id seed =>
        unfold commitLoop at h
        dsimp only at h
        by_cases hc : env.commitFails id = true
        · rw [if_pos hc] at h
          simp only [Except.error.injEq, Prod.mk.injEq] at h
          exact ⟨[], by simp [h.2]⟩
        · rw [if_neg hc] at h
          cases hr : commitLoop env rest with
          | ok refs2 => rw [hr] at h; exact absurd h (by simp)
          | error p =>
            obtain ⟨k2, rem2⟩ := p
            rw [hr] at h
            simp only [Except.error.injEq, Prod.mk.injEq] at h
            obtain ⟨pre, hpre⟩ := ih.2 k2 rem2 hr
            exact ⟨OutRef.active id seed :: pre, by simp [hpre, h.2.symm]⟩
      | shared id c =>
        unfold commitLoop at h
        dsimp only at h
        cases hr : commitLoop env rest with
        | ok refs2 => rw [hr] at h; exact absurd h (by simp)
        | error p =>
          obtain ⟨k2, rem2⟩ := p
          rw [hr] at h
          simp only [Except.error.injEq, Prod.mk.injEq] at h
          obtain ⟨pre, hpre⟩ := ih.2 k2 rem2 hr
          exact ⟨OutRef.shared id c :: pre, by simp [hpre, h.2.symm]⟩

/-- C4 amended: on the success exit nothing is released and the returned
ids are exactly the allocated outputs, in order; on an error exit nothing
is returned and every allocated reference is released, except that a
commit failure partway leaks the references moved to the pending result
list before the failing output (the leaked prefix is non-empty only in the
commit-failure case). -/
theorem run_release_discipline (op : ExecOp) (env : RunEnv) (inputs : List Reference) :
    (∀ refs, (Run op env inputs).result = .ok refs →
        (Run op env inputs).released = [] ∧ refs = (Run op env inputs).allocated)
    ∧ (∀ e, (Run op env inputs).result = .error e →
        ∃ leaked, (Run op env inputs).allocated = leaked ++ (Run op env inputs).released
          ∧ (leaked = [] ∨ ∃ k, e = RunError.commitFailed k)) := by
  unfold Run
  cases hml : mountLoop env inputs op.mounts ⟨0, [], [], [], none⟩ with
  | error p =>
    obtain ⟨e2, st⟩ := p
    have hi := (mountLoop_inv env inputs op.mounts _ rfl).2 e2 st hml
    dsimp only
    constructor
    · intro refs h
      exact absurd h (by simp)
    · intro e h
      exact ⟨[], by simpa using hi, Or.inl rfl⟩
  | ok st =>
    have hi := (mountLoop_inv env inputs op.mounts _ rfl).1 st hml
    dsimp only
    by_cases hx : env.execFails = true
    · rw [if_pos hx]
      constructor
      · intro refs h
        exact absurd h (by simp)
      · intro e h
        exact ⟨[], by simpa using hi, Or.inl rfl⟩
    · rw [if_neg hx]
      cases hcl : commitLoop env st.outputs with
      | ok refs2 =>
        dsimp only
        constructor
        · intro refs h
          injection h with h
          subst h
          refine ⟨rfl, ?_⟩
          rw [(commitLoop_spec env st.outputs).1 refs2 hcl, hi]
        · intro e h
          exact absurd h (by simp)
      | error p =>
        obtain ⟨k, rem⟩ := p
        dsimp only
        constructor
        · intro refs h
          exact absurd h (by simp)
        · intro e h
          injection h with h
          obtain ⟨pre, hpre⟩ := (commitLoop_spec env st.outputs).2 k rem hcl
          refine ⟨pre.map OutRef.rid, ?_, Or.inr ⟨k, by simp [h.symm]⟩⟩
          rw [hi, hpre]
          simp

/-- C4 witness (success case): one read-write root output mount, no
failures — the committed reference is returned, nothing is released. -/
theorem run_release_discipline_witness :
    (Run ⟨metaSh, [⟨none, "", "/", true, false⟩]⟩ envOk []).released = []
    ∧ [0] = (Run ⟨metaSh, [⟨none, "", "/", true, false⟩]⟩ envOk []).allocated :=
  (run_release_discipline ⟨metaSh, [⟨none, "", "/", true, false⟩]⟩ envOk []).1 [0] (by rfl)

/-! ### C6: the checksum source sequence is the sorted distinct pair set -/

theorem insertSrc_mem (l : List Src) (s x : Src) :
    x ∈ insertSrc l s ↔ x ∈ l ∨ x = s := by
  unfold insertSrc
  split_ifs with h
  · constructor
    · exact Or.inl
    · rintro (hx | rfl)
      · exact hx
      · exact h
  · simp

theorem insertSrc_nodup (l : List Src) (s : Src) (h : l.Nodup) :
    (insertSrc l s).Nodup := by
  unfold insertSrc
  split_ifs with hm
  · exact h
  · simp [List.nodup_append, h, hm]

theorem classStep_srcs_mem (c : Classified) (m : Mount) (x : Src) :
    x ∈ (classStep c m).srcs ↔ x ∈ c.srcs ∨
      ∃ idx, m.input = some idx ∧ m.dest ≠ RootMount ∧ m.readonly = true
        ∧ x = ⟨idx, pathJoinRoot m.selector⟩ := by
  obtain ⟨inp, sel, dest, out, ro⟩ := m
  cases inp with
  | none => simp [classStep]
  | some idx =>
    by_cases h : dest ≠ RootMount ∧ ro = true
    · simp [classStep, h, insertSrc_mem, h.1, h.2]
    · simp only [classStep, if_neg h]
      constructor
      · exact Or.inl
      · rintro (hx | ⟨idx2, hinp, hd, hr, rfl⟩)
        · exact hx
        · exact absurd ⟨hd, hr⟩ h

theorem classifyFrom_srcs_nodup (ms : List Mount) (c : Classified)
    (h : c.srcs.Nodup) : (classifyFrom c ms).srcs.Nodup := by
  induction ms generalizing c with
  | nil => exact h
  | cons m rest ih =>
    apply ih
    obtain ⟨inp, sel, dest, out, ro⟩ := m
    cases inp with
    | none => simpa [classStep] using h
    | some idx =>
      by_cases hq : dest ≠ RootMount ∧ ro = true
      · simpa [classStep, hq] using insertSrc_nodup _ _ h
      · simpa [classStep, hq] using h

theorem classifyFrom_srcs_mem (ms : List Mount) (c : Classified) (x : Src) :
    x ∈ (classifyFrom c ms).srcs ↔ x ∈ c.srcs ∨
      ∃ m ∈ ms, ∃ idx, m.input = some idx ∧ m.dest ≠ RootMount ∧ m.readonly = true
        ∧ x = ⟨idx, pathJoinRoot m.selector⟩ := by
  induction ms generalizing c with
  | nil => simp [classifyFrom]
  | cons m rest ih =>
    simp only [classifyFrom]
    rw [ih, classStep_srcs_mem]
    simp only [List.mem_cons]
    constructor
    · rintro ((hx | hm) | hrest)
      · exact Or.inl hx
      · exact Or.inr ⟨m, Or.inl rfl, hm⟩
      · obtain ⟨m2, hm2, hp⟩ := hrest
        exact Or.inr ⟨m2, Or.inr hm2, hp⟩
    · rintro (hx | ⟨m2, (rfl | hm2), hp⟩)
      · exact Or.inl (Or.inl hx)
      · exact Or.inl (Or.inr hp)
      · exact Or.inr ⟨m2, hm2, hp⟩

/-- C6: the checksum source sequence folded into every refined key is the
set of distinct qualifying (index, selector) pairs in the order
(input index, then selector); it is the same for any two operations whose
qualifying pair sets agree — hence independent of mount declaration order,
of map iteration order, and of duplicate qualifying mounts. -/
theorem contentKeys_src_order (op1 op2 : ExecOp)
    (h : ∀ s, s ∈ (classifyMounts op1.mounts).srcs ↔ s ∈ (classifyMounts op2.mounts).srcs) :
    srcSeq op1 = srcSeq op2
    ∧ List.Sorted srcLe (srcSeq op1)
    ∧ (srcSeq op1).Nodup
    ∧ (∀ x, x ∈ srcSeq op1 ↔ ∃ m ∈ op1.mounts, ∃ idx, m.input = some idx
        ∧ m.dest ≠ RootMount ∧ m.readonly = true ∧ x = ⟨idx, pathJoinRoot m.selector⟩) := by
  have n1 : (classifyMounts op1.mounts).srcs.Nodup :=
    classifyFrom_srcs_nodup op1.mounts _ (by simp)
  have n2 : (classifyMounts op2.mounts).srcs.Nodup :=
    classifyFrom_srcs_nodup op2.mounts _ (by simp)
  have hp : (classifyMounts op1.mounts).srcs.Perm (classifyMounts op2.mounts).srcs :=
    (List.perm_ext_iff_of_nodup n1 n2).2 h
  refine ⟨?_, List.sorted_insertionSort srcLe _, ?_, ?_⟩
  · exact List.eq_of_perm_of_sorted
      ((List.perm_insertionSort srcLe _).trans
        (hp.trans (List.perm_insertionSort srcLe _).symm))
      (List.sorted_insertionSort srcLe _) (List.sorted_insertionSort srcLe _)
  · exact ((List.perm_insertionSort srcLe _).nodup_iff).2 n1
  · intro x
    rw [srcSeq, (List.perm_insertionSort srcLe _).mem_iff]
    simpa [classifyMounts] using classifyFrom_srcs_mem op1.mounts ⟨[], [], true⟩ x

/-- C6 witness: reordering the qualifying mounts and duplicating one of
them leaves the ordered checksum source sequence unchanged. -/
theorem contentKeys_src_order_witness :
    srcSeq ⟨metaSh, [⟨some 1, "a", "/s1", false, true⟩, ⟨some 0, "b", "/s2", false, true⟩]⟩
      = srcSeq ⟨metaSh, [⟨some 0, "b", "/s2", false, true⟩, ⟨some 1, "a", "/s1", false, true⟩,
          ⟨some 0, "b", "/s2", false, true⟩]⟩ :=
  (contentKeys_src_order _ _ (by
    intro s
    have e1 : (classifyMounts [⟨some 1, "a", "/s1", false, true⟩,
        ⟨some 0, "b", "/s2", false, true⟩]).srcs = [⟨1, "/a"⟩, ⟨0, "/b"⟩] := by decide
    have e2 : (classifyMounts [⟨some 0, "b", "/s2", false, true⟩,
        ⟨some 1, "a", "/s1", false, true⟩, ⟨some 0, "b", "/s2", false, true⟩]).srcs
        = [⟨0, "/b"⟩, ⟨1, "/a"⟩] := by decide
    rw [e1, e2]
    simp only [List.mem_cons, List.not_mem_nil, or_false]
    tauto)).1

/-- C7 counterexample: two operations whose mount declarations are
permutations of each other but share a destination path; the auxiliary
mount lists passed to the worker differ (ties in the sort by destination
keep declaration order). -/
theorem run_mount_order_cex :
    (Run ⟨metaSh, [⟨none, "x", "/m", false, true⟩, ⟨none, "y", "/m", false, false⟩]⟩
        envOk []).worker
      ≠ (Run ⟨metaSh, [⟨none, "y", "/m", false, false⟩, ⟨none, "x", "/m", false, true⟩]⟩
        envOk []).worker := by
  intro h
  exact absurd h (by decide)

/-- C3 witness: with the qualifying index in range and the candidate key
list covering the skipped index, no out-of-range access happens; and an
in-range reference of the wrong storage kind makes `ContentKeys` return
the invalid-reference error. -/
theorem contentKeys_access_guard_witness :
    (ContentKeys ⟨metaSh, [⟨some 0, "", "/src", false, true⟩, ⟨some 0, "", "/rw", true, false⟩]⟩
      [[5]] [.imm 3] ≠ .error .panicOOB)
    ∧ ContentKeys ⟨metaSh, [⟨some 0, "", "/src", false, true⟩]⟩ [[]] [.other 4]
      = .error .invalidReference :=
  ⟨(contentKeys_access_guard ⟨metaSh, [⟨some 0, "", "/src", false, true⟩,
      ⟨some 0, "", "/rw", true, false⟩]⟩ [[5]] [.imm 3] (by decide)).1 (by decide) (by decide),
   (contentKeys_access_guard ⟨metaSh, [⟨some 0, "", "/src", false, true⟩]⟩ [[]] [.other 4]
      (by decide)).2.2 (by decide) ⟨⟨0, "/"⟩, by decide, .other 4, rfl, rfl⟩⟩

/-! ### C7: the worker mount order, up to fresh-reference identity -/

theorem refOf_ok (inputs : List Reference) (m : Mount) (ref : Option Nat)
    (h : refOf inputs m = .ok ref) : ref = refContentAt inputs m := by
  unfold refOf at h
  unfold refContentAt
  cases hm : m.input with
  | none =>
    rw [hm] at h
    dsimp only at h ⊢
    injection h with h
    exact h.symm
  | some i =>
    rw [hm] at h
    dsimp only at h ⊢
    split_ifs at h with hgt
    cases hg : inputs.get? i with
    | none =>
      rw [hg] at h
      exact absurd h (by simp)
    | some r =>
      rw [hg] at h
      cases r with
      | imm c =>
        dsimp only [toImmutableRefOpt] at h ⊢
        injection h with h
        exact h.symm
      | other t =>
        dsimp only [toImmutableRefOpt] at h
        exact absurd h (by simp)

theorem mountOutPhase_wm (env : RunEnv) (m : Mount) (ref : Option Nat)
    (st st3 : LoopSt) (mnt : Option Mountable)
    (h : mountOutPhase env m ref st = .ok (st3, mnt)) :
    st3.wmounts = st.wmounts := by
  unfold mountOutPhase at h
  split_ifs at h with ho hc hn
  · cases ref with
    | none => exact absurd h (by simp)
    | some c =>
      simp only [Except.ok.injEq, Prod.mk.injEq] at h
      obtain ⟨hA, hB⟩ := h
      subst hA
      rfl
  · simp only [Except.ok.injEq, Prod.mk.injEq] at h
    obtain ⟨hA, hB⟩ := h
    subst hA
    rfl
  · simp only [Except.ok.injEq, Prod.mk.injEq] at h
    obtain ⟨hA, hB⟩ := h
    subst hA
    rfl

theorem mountOutPhase_mnt (env : RunEnv) (m : Mount) (ref : Option Nat)
    (st st3 : LoopSt) (mnt : Option Mountable)
    (h : mountOutPhase env m ref st = .ok (st3, mnt)) :
    projMountable mnt = staticProj m ref := by
  unfold mountOutPhase at h
  unfold staticProj
  split_ifs at h ⊢ with ho hc hn
  · cases ref with
    | none => exact absurd h (by simp)
    | some c =>
      simp only [Except.ok.injEq, Prod.mk.injEq] at h
      obtain ⟨hA, hB⟩ := h
      subst hB
      rfl
  · simp only [Except.ok.injEq, Prod.mk.injEq] at h
    obtain ⟨hA, hB⟩ := h
    subst hB
    rfl
  · simp only [Except.ok.injEq, Prod.mk.injEq] at h
    obtain ⟨hA, hB⟩ := h
    subst hB
    cases ref <;> rfl

theorem mountStep_wm (env : RunEnv) (inputs : List Reference) (m : Mount)
    (st st2 : LoopSt) (h : mountStep env inputs m st = .ok st2) :
    st2.wmounts.map projWM = st.wmounts.map projWM
      ++ if m.dest = RootMount then [] else [staticPWM inputs m] := by
  unfold mountStep at h
  cases hr : refOf inputs m with
  | error e => rw [hr] at h; exact absurd h (by simp)
  | ok ref =>
    rw [hr] at h
    dsimp only at h
    cases hp : mountOutPhase env m ref st with
    | error e => rw [hp] at h; exact absurd h (by simp)
    | ok pr =>
      obtain ⟨st3, mnt⟩ := pr
      rw [hp] at h
      dsimp only at h
      have hwm := mountOutPhase_wm env m ref st st3 mnt hp
      have hmnt := mountOutPhase_mnt env m ref st st3 mnt hp
      have href : ref = refContentAt inputs m := refOf_ok inputs m ref hr
      subst href
      split_ifs at h with hd
      · injection h with h4
        subst h4
        simp [hd, hwm]
      · injection h with h4
        subst h4
        simp [hd, hwm, projWM, staticPWM, hmnt]

theorem mountLoop_wm (env : RunEnv) (inputs : List Reference) :
    ∀ (ms : List Mount) (st st2 : LoopSt),
    mountLoop env inputs ms st = .ok st2 →
    st2.wmounts.map projWM = st.wmounts.map projWM
      ++ (ms.filter (fun m => decide (m.dest ≠ RootMount))).map (staticPWM inputs) := by
  intro ms
  induction ms with
  | nil =>
    intro st st2 h
    injection h with h
    simp [h]
  | cons m rest ih =>
    intro st st2 h
    unfold mountLoop at h
    cases hs : mountStep env inputs m st with
    | error e => rw [hs] at h; exact absurd h (by simp)
    | ok st3 =>
      rw [hs] at h
      have h1 := mountStep_wm env inputs m st st3 hs
      have h2 := ih st3 st2 h
      rw [h2, h1]
      by_cases hd : m.dest = RootMount <;>
        simp [hd, List.filter_cons]

theorem run_worker_some (op : ExecOp) (env : RunEnv) (inputs : List Reference)
    (r : Option Mountable) (l : List WMount)
    (h : (Run op env inputs).worker = some (r, l)) :
    ∃ st, mountLoop env inputs op.mounts ⟨0, [], [], [], none⟩ = .ok st
      ∧ l = List.insertionSort destLe st.wmounts := by
  unfold Run at h
  cases hml : mountLoop env inputs op.mounts ⟨0, [], [], [], none⟩ with
  | error p =>
    obtain ⟨e, st⟩ := p
    rw [hml] at h
    exact absurd h (by simp)
  | ok st =>
    rw [hml] at h
    dsimp only at h
    refine ⟨st, rfl, ?_⟩
    split_ifs at h with hx
    · simp only [Option.some.injEq, Prod.mk.injEq] at h
      exact h.2.symm
    · cases hcl : commitLoop env st.outputs with
      | ok refs =>
        rw [hcl] at h
        dsimp only at h
        simp only [Option.some.injEq, Prod.mk.injEq] at h
        exact h.2.symm
      | error p =>
        obtain ⟨k, rem⟩ := p
        rw [hcl] at h
        dsimp only at h
        simp only [Option.some.injEq, Prod.mk.injEq] at h
        exact h.2.symm

theorem pairwise_pdestLt (l : List PWMount)
    (hs : l.Pairwise pdestLe)
    (hne : l.Pairwise (fun a b => a.dest ≠ b.dest)) :
    l.Pairwise pdestLt := by
  refine (hs.and hne).imp ?_
  intro a b hab
  obtain ⟨hle, hne2⟩ := hab
  unfold pdestLt
  cases hba : strLeb b.dest.data a.dest.data with
  | false => rfl
  | true => exact absurd (strLe_antisymm a.dest b.dest hle hba) hne2

/-- C7 amended: for two `Run` calls on operations whose mount declarations
are permutations of each other, provided the non-root destination paths
are pairwise distinct, the auxiliary mount lists passed to the worker are
the same dest-sorted sequence up to the identity of freshly allocated
output references. -/
theorem run_worker_mounts_order (op1 op2 : ExecOp) (env1 env2 : RunEnv)
    (inputs : List Reference)
    (hperm : op1.mounts.Perm op2.mounts)
    (hnd : ((op1.mounts.filter (fun m => decide (m.dest ≠ RootMount))).map Mount.dest).Nodup)
    (r1 : Option Mountable) (l1 : List WMount)
    (r2 : Option Mountable) (l2 : List WMount)
    (h1 : (Run op1 env1 inputs).worker = some (r1, l1))
    (h2 : (Run op2 env2 inputs).worker = some (r2, l2)) :
    l1.map projWM = l2.map projWM
    ∧ List.Sorted destLe l1 ∧ List.Sorted destLe l2 := by
  obtain ⟨st1, hml1, hl1⟩ := run_worker_some op1 env1 inputs r1 l1 h1
  obtain ⟨st2, hml2, hl2⟩ := run_worker_some op2 env2 inputs r2 l2 h2
  have hw1 : st1.wmounts.map projWM
      = (op1.mounts.filter (fun m => decide (m.dest ≠ RootMount))).map (staticPWM inputs) := by
    simpa using mountLoop_wm env1 inputs op1.mounts _ st1 hml1
  have hw2 : st2.wmounts.map projWM
      = (op2.mounts.filter (fun m => decide (m.dest ≠ RootMount))).map (staticPWM inputs) := by
    simpa using mountLoop_wm env2 inputs op2.mounts _ st2 hml2
  have hs1 : List.Sorted destLe l1 := hl1 ▸ List.sorted_insertionSort destLe st1.wmounts
  have hs2 : List.Sorted destLe l2 := hl2 ▸ List.sorted_insertionSort destLe st2.wmounts
  have hperm1 : (l1.map projWM).Perm (st1.wmounts.map projWM) :=
    (hl1 ▸ List.perm_insertionSort destLe st1.wmounts).map projWM
  have hperm2 : (l2.map projWM).Perm (st2.wmounts.map projWM) :=
    (hl2 ▸ List.perm_insertionSort destLe st2.wmounts).map projWM
  have hpp : (l1.map projWM).Perm (l2.map projWM) := by
    refine hperm1.trans (List.Perm.trans ?_ hperm2.symm)
    rw [hw1, hw2]
    exact (hperm.filter _).map _
  have hd1 : ((l1.map projWM).map PWMount.dest).Perm
      ((op1.mounts.filter (fun m => decide (m.dest ≠ RootMount))).map Mount.dest) := by
    have := hperm1.map PWMount.dest
    rw [hw1] at this
    refine this.trans ?_
    rw [List.map_map]
    exact List.Perm.refl _
  have hnd1 : ((l1.map projWM).map PWMount.dest).Nodup := hd1.nodup_iff.2 hnd
  have hnd2 : ((l2.map projWM).map PWMount.dest).Nodup :=
    ((hpp.map PWMount.dest).nodup_iff).1 hnd1
  have hsp1 : (l1.map projWM).Pairwise pdestLe :=
    hs1.map projWM (fun a b hab => hab)
  have hsp2 : (l2.map projWM).Pairwise pdestLe :=
    hs2.map projWM (fun a b hab => hab)
  have hlt1 : (l1.map projWM).Pairwise pdestLt :=
    pairwise_pdestLt _ hsp1 ((List.pairwise_map).1 hnd1)
  have hlt2 : (l2.map projWM).Pairwise pdestLt :=
    pairwise_pdestLt _ hsp2 ((List.pairwise_map).1 hnd2)
  exact ⟨List.eq_of_perm_of_sorted hpp hlt1 hlt2, hs1, hs2⟩

/-- C7 witness: two mounts with distinct destinations declared in either
order give the worker the same dest-sorted auxiliary list. -/
theorem run_worker_mounts_order_witness :
    List.map projWM [WMount.mk none "/a" true "x", WMount.mk none "/b" false "y"]
      = List.map projWM [WMount.mk none "/a" true "x", WMount.mk none "/b" false "y"]
    ∧ List.Sorted destLe [WMount.mk none "/a" true "x", WMount.mk none "/b" false "y"]
    ∧ List.Sorted destLe [WMount.mk none "/a" true "x", WMount.mk none "/b" false "y"] :=
  run_worker_mounts_order
    ⟨metaSh, [⟨none, "x", "/a", false, true⟩, ⟨none, "y", "/b", false, false⟩]⟩
    ⟨metaSh, [⟨none, "y", "/b", false, false⟩, ⟨none, "x", "/a", false, true⟩]⟩
    envOk envOk [] (by decide) (by decide) none _ none _ rfl rfl

/-! ### C5: cached ancestors are reported before the start event -/

theorem insertStarted_mem (v x : Nat) (s : List Nat) :
    x ∈ insertStarted v s ↔ x = v ∨ x ∈ s := by
  unfold insertStarted
  split_ifs with h
  · constructor
    · exact Or.inr
    · rintro (rfl | hx)
      · exact h
      · exact hx
  · simp

theorem orderedFrom_nil (G : Nat → List Nat) (s : List Nat) : OrderedFrom G s [] := by
  intro ea u b eb heq
  exact absurd heq (by simp)

theorem orderedFrom_append (G : Nat → List Nat) (s s1 : List Nat)
    (e1 e2 : List PEvent)
    (h1 : OrderedFrom G s e1)
    (hchar : ∀ x ∈ s1, x ∈ s ∨ ∃ b, PEvent.completed x b ∈ e1)
    (h2 : OrderedFrom G s1 e2) :
    OrderedFrom G s (e1 ++ e2) := by
  intro ea u b eb heq w hw
  rcases List.append_eq_append_iff.1 heq with ⟨a2, ha, hb⟩ | ⟨c2, hc, hd⟩
  · rcases h2 a2 u b eb hb w hw with hws | ⟨b2, hb2⟩
    · rcases hchar w hws with hw1 | ⟨b3, hb3⟩
      · exact Or.inl hw1
      · exact Or.inr ⟨b3, by rw [ha]; exact List.mem_append_left _ hb3⟩
    · exact Or.inr ⟨b2, by rw [ha]; exact List.mem_append_right _ hb2⟩
  · cases c2 with
    | nil =>
      simp at hd
      rcases h2 [] u b eb (by simpa using hd.symm) w hw with hws | ⟨b2, hb2⟩
      · rcases hchar w hws with hw1 | ⟨b3, hb3⟩
        · exact Or.inl hw1
        · exact Or.inr ⟨b3, by rw [hc] at hb3; simpa using hb3⟩
      · exact absurd hb2 (List.not_mem_nil _)
    | cons x c3 =>
      injection hd with hx hd2
      subst hx
      exact h1 ea u b c3 hc w hw

theorem orderedFrom_single (G : Nat → List Nat) (s1 : List Nat) (v : Nat) (c : Bool)
    (h : ∀ w ∈ G v, w ∈ s1) :
    OrderedFrom G s1 [PEvent.completed v c] := by
  intro ea u b eb heq w hw
  have hlen := congrArg List.length heq
  simp at hlen
  have hea : ea = [] := List.length_eq_zero.1 (by omega)
  have heb : eb = [] := List.length_eq_zero.1 (by omega)
  subst hea
  subst heb
  simp at heq
  obtain ⟨hv, hb⟩ := heq
  exact Or.inl (h w (hv ▸ hw))

theorem markInputs_zero (G : Nat → List Nat) (l s : List Nat) :
    markInputs G 0 l s = (s, []) := by
  induction l with
  | nil => simp only [markInputs]
  | cons u rest ih =>
    simp only [markInputs, recursiveMarkCached, notifyCompleted, ih]
    split_ifs <;> rfl

theorem progress_spec (G : Nat → List Nat) (rk : Nat → Nat)
    (hrk : ∀ u w, w ∈ G u → rk w < rk u) :
    ∀ f, NCspec G rk f ∧ RMCspec G rk f ∧ MLspec G rk f := by
  intro f
  induction f with
  | zero =>
    refine ⟨?_, ?_, ?_⟩
    · intro v c s
      simp only [notifyCompleted]
      refine ⟨fun x hx => hx, fun x hx => Or.inl hx, Or.inl (by simp), by omega, by omega⟩
    · intro v s
      simp only [recursiveMarkCached]
      refine ⟨fun x hx => hx, fun x hx => Or.inl hx,
        by intro e he; exact absurd he (List.not_mem_nil e), by omega, by omega⟩
    · intro l s
      rw [markInputs_zero]
      refine ⟨fun x hx => hx, fun x hx => Or.inl hx,
        by intro e he; exact absurd he (List.not_mem_nil e), by omega,
        fun _ => orderedFrom_nil G s⟩
  | succ g ih =>
    obtain ⟨ihNC, ihRMC, ihML⟩ := ih
    have hNC : NCspec G rk (g+1) := by
      intro v c s
      obtain ⟨hmono, hchar, halltrue, hclos, hord⟩ := ihRMC v s
      simp only [notifyCompleted]
      refine ⟨?_, ?_, ?_, ?_, ?_⟩
      · intro x hx
        exact (insertStarted_mem v x _).2 (Or.inr (hmono x hx))
      · intro x hx
        rcases (insertStarted_mem v x _).1 hx with rfl | hx2
        · exact Or.inr ⟨c, by simp⟩
        · rcases hchar x hx2 with h | ⟨b, hb⟩
          · exact Or.inl h
          · exact Or.inr ⟨b, List.mem_append_left _ hb⟩
      · exact Or.inr ⟨(recursiveMarkCached G g v s).2, rfl, halltrue⟩
      · intro hf
        exact (insertStarted_mem v v _).2 (Or.inl rfl)
      · intro hf
        have hGsub : ∀ u ∈ G v, u ∈ (recursiveMarkCached G g v s).1 := by
          intro u hu
          by_cases h0 : rk v = 0
          · exact absurd (hrk v u hu) (by omega)
          · exact hclos (by omega) u hu
        constructor
        · intro u hu
          exact (insertStarted_mem v u _).2 (Or.inr (hGsub u hu))
        · exact orderedFrom_append G s (recursiveMarkCached G g v s).1 _ _
            (hord (by omega)) hchar (orderedFrom_single G _ v c hGsub)
    have hRMC : RMCspec G rk (g+1) := by
      intro v s
      obtain ⟨m1, c1, a1, cl1, o1⟩ := ihML (G v) s
      simp only [recursiveMarkCached]
      refine ⟨m1, c1, a1, ?_, ?_⟩
      · intro hf u hu
        exact cl1 (by omega) u hu
      · intro hf
        apply o1
        intro u hu
        have := hrk v u hu
        omega
    have hML : MLspec G rk (g+1) := by
      intro l
      induction l with
      | nil =>
        intro s
        simp only [markInputs]
        exact ⟨fun x hx => hx, fun x hx => Or.inl hx,
          by intro e he; exact absurd he (List.not_mem_nil e), by simp,
          fun _ => orderedFrom_nil G s⟩
      | cons u rest ihl =>
        intro s
        by_cases hu : u ∈ s
        · obtain ⟨m1, c1, a1, cl1, o1⟩ := ihl s
          simp only [markInputs, if_pos hu]
          refine ⟨m1, c1, a1, ?_, ?_⟩
          · intro hf x hx
            rcases List.mem_cons.1 hx with rfl | hx2
            · exact m1 x hu
            · exact cl1 hf x hx2
          · intro hcond
            exact o1 (fun x hx => hcond x (by simp [hx]))
        · obtain ⟨rm, rc, ra, rcl, rord⟩ := hRMC u s
          obtain ⟨nm, nc, nsh, nself, ndeep⟩ :=
            hNC u true (recursiveMarkCached G (g+1) u s).1
          obtain ⟨pm, pc, pa, pcl, pord⟩ :=
            ihl (notifyCompleted G (g+1) u true (recursiveMarkCached G (g+1) u s).1).1
          simp only [markInputs, if_neg hu]
          refine ⟨?_, ?_, ?_, ?_, ?_⟩
          · intro x hx
            exact pm x (nm x (rm x hx))
          · intro x hx
            rcases pc x hx with hx2 | ⟨b, hb⟩
            · rcases nc x hx2 with hx3 | ⟨b, hb⟩
              · rcases rc x hx3 with hx4 | ⟨b, hb⟩
                · exact Or.inl hx4
                · exact Or.inr ⟨b, by simp [hb]⟩
              · exact Or.inr ⟨b, by simp [hb]⟩
            · exact Or.inr ⟨b, by simp [hb]⟩
          · intro e he
            rcases List.mem_append.1 he with he2 | he3
            · rcases List.mem_append.1 he2 with he4 | he5
              · exact ra e he4
              · rcases nsh with hemp | ⟨e1, hsplit, ha1⟩
                · rw [hemp] at he5
                  exact absurd he5 (List.not_mem_nil e)
                · rw [hsplit] at he5
                  rcases List.mem_append.1 he5 with he6 | he7
                  · exact ha1 e he6
                  · exact ⟨u, by simpa using he7⟩
            · exact pa e he3
          · intro hf x hx
            rcases List.mem_cons.1 hx with rfl | hx2
            · exact pm x (nself (by omega))
            · exact pcl hf x hx2
          · intro hcond
            have hcu : 2 * rk u + 2 ≤ g + 1 := hcond u (by simp)
            have O1 : OrderedFrom G s
                ((recursiveMarkCached G (g+1) u s).2
                  ++ (notifyCompleted G (g+1) u true (recursiveMarkCached G (g+1) u s).1).2) :=
              orderedFrom_append G s (recursiveMarkCached G (g+1) u s).1 _ _
                (rord (by omega)) rc ((ndeep hcu).2)
            have hchar12 : ∀ x ∈ (notifyCompleted G (g+1) u true
                  (recursiveMarkCached G (g+1) u s).1).1,
                x ∈ s ∨ ∃ b, PEvent.completed x b ∈
                  (recursiveMarkCached G (g+1) u s).2
                  ++ (notifyCompleted G (g+1) u true (recursiveMarkCached G (g+1) u s).1).2 := by
              intro x hx
              rcases nc x hx with hx2 | ⟨b, hb⟩
              · rcases rc x hx2 with hx3 | ⟨b, hb⟩
                · exact Or.inl hx3
                · exact Or.inr ⟨b, List.mem_append_left _ hb⟩
              · exact Or.inr ⟨b, List.mem_append_right _ hb⟩
            exact orderedFrom_append G s _ _ _ O1 hchar12
              (pord (fun x hx => hcond x (by simp [hx])))
    exact ⟨hNC, hRMC, hML⟩

/-- C5: in the event sequence emitted by `notifyStarted`, the vertex's own
start event comes strictly last; every input vertex that was not yet
started is emitted as completed with `cached = true` before it; all events
emitted by the marking phase are cached completions; and each marked
vertex's own un-started inputs are emitted before it (ancestors before
descendants). -/
theorem notifyStarted_cached_ancestors_first
    (G : Nat → List Nat) (rk : Nat → Nat)
    (hrk : ∀ u w, w ∈ G u → rk w < rk u)
    (f v : Nat) (s : List Nat) (hf : 2 * rk v + 1 ≤ f) :
    (notifyStarted G f v s).2 = (recursiveMarkCached G f v s).2 ++ [PEvent.started v]
    ∧ (∀ u ∈ G v, u ∉ s → PEvent.completed u true ∈ (recursiveMarkCached G f v s).2)
    ∧ allCachedMarks (recursiveMarkCached G f v s).2
    ∧ OrderedFrom G s (recursiveMarkCached G f v s).2 := by
  obtain ⟨_, hRMC, _⟩ := progress_spec G rk hrk f
  obtain ⟨hmono, hchar, halltrue, hclos, hord⟩ := hRMC v s
  refine ⟨rfl, ?_, halltrue, hord hf⟩
  intro u hu hus
  have hin : u ∈ (recursiveMarkCached G f v s).1 := by
    by_cases h0 : rk v = 0
    · exact absurd (hrk v u hu) (by omega)
    · exact hclos (by omega) u hu
  rcases hchar u hin with h | ⟨b, hb⟩
  · exact absurd h hus
  · obtain ⟨u2, hu2⟩ := halltrue _ hb
    injection hu2 with hu3 hb2
    rw [hb2] at hb
    exact hb

theorem chainG_ranked : ∀ u w, w ∈ chainG u → (fun n => n) w < (fun n => n) u := by
  intro u w hw
  show w < u
  unfold chainG at hw
  split_ifs at hw with h1 h2
  · simp at hw
    omega
  · simp at hw
    omega
  · exact absurd hw (List.not_mem_nil w)

/-- C5 witness: on the chain 2 → 1 → 0 with nothing started, the start
event of vertex 2 is emitted strictly after the whole marking phase. -/
theorem notifyStarted_cached_ancestors_first_witness :
    (notifyStarted chainG 10 2 []).2
      = (recursiveMarkCached chainG 10 2 []).2 ++ [PEvent.started 2] :=
  (notifyStarted_cached_ancestors_first chainG (fun n => n) chainG_ranked
    10 2 [] (by norm_num)).1

end Solver
